import Mathlib

/-! The task lifecycle of `runner.go`.

A shallow embedding of `src/runner.go` (package `runner`): the `Task` struct,
its methods `Then`, `Stop`, `StopChan`, `Running`, `Err`, the should-stop
closure of type `S` handed to the work function, and the goroutine started by
`Go`, followed by the theorems about them.

Conventions of the embedding.

* Goroutines are interleaved under sequential consistency; a run is a list of
  events `Ev`, each one call of a method by some goroutine (`Ev.Stop`,
  `Ev.Then fn`, ...) or one step of the goroutine started by `Go` (`Ev.go`).
* A call that cannot return from the current state yields `none`: the caller
  waits for the lock or for the channel (or, for `close` of a closed channel
  and `Unlock`/`RUnlock` of an unlocked mutex, the runtime aborts).
* The critical sections of `Then`, `Running`, `Err` and of the should-stop
  closure contain no call; each is one step. The critical section of the
  completion sequence (lines 29-39) calls arbitrary callbacks; it is executed
  statement by statement.
* A callback `func()` is a value of a type `κ`. The call `then()` of line 35
  is `call f t w : Option W`: what running `f` does to the rest of the program
  state `w : W` when the task is in state `t` (a callback may hold the handle
  and read the task through its methods), and `none` when the call does not
  return: a nil func, a panic, a method of the task that waits. What a
  callback writes to its own task is an event of the run like any other:
  `Ev.Stop` can happen between two steps of the completion sequence.
* An `error` is an `Option ε`, with `none` for `nil`.
* The work function `fn func(S) error` is the tree of its interactions with
  the closure it is given: `Work.ask yes no` calls the closure and goes on as
  `yes` or `no` according to the answer, `Work.ret err` returns `err`. A run of
  work that never returns is, at each of its states, a run of such a tree.
* The goroutine of `Go` touches the task for the first time after `fn` at
  line 29. Its step out of `fn` is the return together with `t.lock.Lock()`:
  a call another goroutine makes between the two is a call made before it.
-/

set_option linter.unnecessarySeqFocus false

namespace Runner

/-! ## sync.RWMutex and the channel -/

/-- State of a `sync.RWMutex`: whether a writer holds it and how many readers do. -/
structure RWMutex where
  writer : Bool
  readers : Nat
deriving DecidableEq, Repr

/-- The call `RLock()`: granted unless a writer holds the mutex. -/
def RWMutex.RLock (m : RWMutex) : Option RWMutex :=
  if m.writer then none else some { m with readers := m.readers + 1 }

/-- The call `RUnlock()`: gives back one read lock. -/
def RWMutex.RUnlock (m : RWMutex) : Option RWMutex :=
  if m.readers = 0 then none else some { m with readers := m.readers - 1 }

/-- The call `Lock()`: granted when neither a writer nor a reader holds the mutex. -/
def RWMutex.Lock (m : RWMutex) : Option RWMutex :=
  if m.writer || m.readers != 0 then none else some { m with writer := true }

/-- The call `Unlock()`: gives back the write lock. -/
def RWMutex.Unlock (m : RWMutex) : Option RWMutex :=
  if m.writer then some { m with writer := false } else none

/-- State of the `chan struct{}` of a task. Nothing is ever sent on it, so only
whether it has been closed matters. -/
structure Chan where
  closed : Bool
deriving DecidableEq, Repr

/-- The builtin `close(c)`: closing a closed channel panics. -/
def Chan.close (c : Chan) : Option Chan :=
  if c.closed then none else some { c with closed := true }

/-- A receive `<-c`: returns once the channel is closed, waits before. -/
def Chan.recv (c : Chan) : Option Unit :=
  if c.closed then some () else none

/-! ## Task and its methods -/

/-- The struct `Task` (lines 45-52). -/
structure Task (κ ε : Type) where
  lock : RWMutex
  stopChan : Chan
  shouldStop : Bool
  running : Bool
  err : Option ε
  thens : List κ
deriving DecidableEq, Repr

variable {κ ε W : Type}

/-- The method `Then` (lines 58-63); the returned receiver is the updated task. -/
def Task.Then (t : Task κ ε) (fn : κ) : Option (Task κ ε) := do
  let l ← t.lock.Lock
  let t := { t with lock := l }
  let t := { t with thens := t.thens ++ [fn] }
  let l ← t.lock.Unlock
  pure { t with lock := l }

/-- The method `Stop` (lines 66-68): takes no lock. -/
def Task.Stop (t : Task κ ε) : Task κ ε :=
  { t with shouldStop := true }

/-- The method `StopChan` (lines 73-75): takes no lock. -/
def Task.StopChan (t : Task κ ε) : Chan :=
  t.stopChan

/-- The method `Running` (lines 79-84). -/
def Task.Running (t : Task κ ε) : Option (Bool × Task κ ε) := do
  let l ← t.lock.RLock
  let t := { t with lock := l }
  let running := t.running
  let l ← t.lock.RUnlock
  pure (running, { t with lock := l })

/-- The method `Err` (lines 87-92). -/
def Task.Err (t : Task κ ε) : Option (Option ε × Task κ ε) := do
  let l ← t.lock.RLock
  let t := { t with lock := l }
  let err := t.err
  let l ← t.lock.RUnlock
  pure (err, { t with lock := l })

/-- The closure of type `S` that `Go` hands to the work function (lines 20-27). -/
def Task.S (t : Task κ ε) : Option (Bool × Task κ ε) := do
  let l ← t.lock.RLock
  let t := { t with lock := l }
  let shouldStop := t.shouldStop
  let l ← t.lock.RUnlock
  pure (shouldStop, { t with lock := l })

/-! ## The goroutine started by Go -/

/-- A work function `fn func(S) error`, as the tree of its calls of the closure. -/
inductive Work (ε : Type) where
  | ret (err : Option ε) : Work ε
  | ask (yes no : Work ε) : Work ε
deriving DecidableEq, Repr

/-- Where the goroutine of `Go` (lines 18-40) stands. -/
inductive Pc (κ ε : Type) where
  /-- Line 20: inside `fn`, the rest of which is `w`. -/
  | fn (w : Work ε) : Pc κ ε
  /-- After line 29: `fn` has returned `err`, the goroutine holds the write lock. -/
  | locked (err : Option ε) : Pc κ ε
  /-- After line 30: `t.err = err` is done. -/
  | stored : Pc κ ε
  /-- After line 31, in the loop of lines 34-36 with `rest` still to call. -/
  | thens (rest : List κ) : Pc κ ε
  /-- After line 38: the channel is closed, the lock still held. -/
  | closed : Pc κ ε
  /-- After line 39: the goroutine has exited. -/
  | done : Pc κ ε
deriving DecidableEq, Repr

/-- The program state: the task, the goroutine of `Go`, the state `world` the
callbacks act on, and the log `calls` of the calls `then()` of line 35 that
have returned so far. -/
structure Sys (κ ε W : Type) where
  t : Task κ ε
  pc : Pc κ ε
  world : W
  calls : List κ
deriving DecidableEq, Repr

/-- The function `Go` (lines 13-42): the state in which it returns the task,
the goroutine not yet started. -/
def Go (fn : Work ε) (w : W) : Sys κ ε W :=
  { t := { lock := { writer := false, readers := 0 }
           stopChan := { closed := false }
           shouldStop := false
           running := true
           err := none
           thens := [] }
    pc := .fn fn
    world := w
    calls := [] }

/-- One step of the goroutine of `Go` (lines 20-39): a call of the closure by
`fn`, the return of `fn` with `t.lock.Lock()` (lines 20 and 29), or one
statement of lines 30-39, a turn of the loop being one call `then()`. The
goroutine has no step while the callback it called does not return. -/
def Sys.go (call : κ → Task κ ε → W → Option W) (s : Sys κ ε W) : Option (Sys κ ε W) :=
  match s.pc with
  | .fn (.ask yes no) => do
      let (b, t) ← s.t.S
      pure { s with t := t, pc := .fn (if b then yes else no) }
  | .fn (.ret err) => do
      let l ← s.t.lock.Lock
      pure { s with t := { s.t with lock := l }, pc := .locked err }
  | .locked err =>
      some { s with t := { s.t with err := err }, pc := .stored }
  | .stored =>
      some { s with t := { s.t with running := false }, pc := .thens s.t.thens }
  | .thens (f :: rest) => do
      let w ← call f s.t s.world
      pure { s with world := w, calls := s.calls ++ [f], pc := .thens rest }
  | .thens [] => do
      let c ← s.t.stopChan.close
      pure { s with t := { s.t with stopChan := c }, pc := .closed }
  | .closed => do
      let l ← s.t.lock.Unlock
      pure { s with t := { s.t with lock := l }, pc := .done }
  | .done => none

/-- The events of a run: a call of a method of the task by any goroutine, a
call of the should-stop closure, a receive on the channel `StopChan` returned,
or one step of the goroutine of `Go`. -/
inductive Ev (κ : Type) where
  | Stop : Ev κ
  | Then (fn : κ) : Ev κ
  | Running : Ev κ
  | Err : Ev κ
  | StopChan : Ev κ
  | recv : Ev κ
  | S : Ev κ
  | go : Ev κ
deriving DecidableEq, Repr

/-- The state after one event, `none` when the event cannot happen in `s`. -/
def Sys.step (call : κ → Task κ ε → W → Option W) (s : Sys κ ε W) : Ev κ → Option (Sys κ ε W)
  | .Stop => some { s with t := s.t.Stop }
  | .Then fn => (s.t.Then fn).map fun t => { s with t := t }
  | .Running => s.t.Running.map fun r => { s with t := r.2 }
  | .Err => s.t.Err.map fun r => { s with t := r.2 }
  | .StopChan => some s
  | .recv => s.t.StopChan.recv.map fun _ => s
  | .S => s.t.S.map fun r => { s with t := r.2 }
  | .go => s.go call

/-- The state after a run. -/
def Sys.exec (call : κ → Task κ ε → W → Option W) (s : Sys κ ε W) : List (Ev κ) → Option (Sys κ ε W)
  | [] => some s
  | ev :: tr => (s.step call ev).bind fun s => s.exec call tr

/-- The callbacks the `Then` events of a run register, in order. -/
def registered : List (Ev κ) → List κ
  | [] => []
  | .Then fn :: tr => fn :: registered tr
  | _ :: tr => registered tr

/-- Whether a run holds a call of `Stop`. -/
def stopCalled : List (Ev κ) → Bool
  | [] => false
  | .Stop :: _ => true
  | _ :: tr => stopCalled tr

/-- The run of the goroutine alone for `n` steps. -/
def goSteps (n : Nat) : List (Ev κ) :=
  List.replicate n .go

/-- The loop of lines 34-36 over `thens`, the task being in state `t`: the
state the callbacks leave, `none` when one of them does not return. -/
def callAll (call : κ → Task κ ε → W → Option W) (t : Task κ ε) : List κ → W → Option W
  | [], w => some w
  | f :: rest, w => (call f t w).bind fun w => callAll call t rest w

/-- The task while the loop of lines 34-36 runs, `t` being the task when the
work was about to return `e`. -/
def Task.inLoop (t : Task κ ε) (e : Option ε) : Task κ ε :=
  { t with lock := { writer := true, readers := 0 }, err := e, running := false }

/-- The callback `f` returns whenever it is called. -/
def Returns (call : κ → Task κ ε → W → Option W) (f : κ) : Prop :=
  ∀ t w, (call f t w).isSome = true

/-- The callback `f` does not return when called while the lock of the task is
held for writing. -/
def Waits (call : κ → Task κ ε → W → Option W) (f : κ) : Prop :=
  ∀ t w, t.lock.writer = true → call f t w = none

/-! ## Tasks behind handles -/

/-- A heap of tasks; a `*Task` is an index into it. -/
abbrev Heap (κ ε : Type) := List (Task κ ε)

/-- The method `Then` on a handle (lines 58-63): the pair of the returned handle
and the heap after the call. -/
def Heap.Then (σ : Heap κ ε) (t : Nat) (fn : κ) : Option (Nat × Heap κ ε) := do
  let obj ← σ[t]?
  let obj ← obj.Then fn
  pure (t, σ.set t obj)

/-- Whether the goroutine of `Go` holds the write lock at this point (lines 29-39). -/
def Pc.holdsLock : Pc κ ε → Bool
  | .locked _ => true
  | .stored => true
  | .thens _ => true
  | .closed => true
  | _ => false

/-- What the states before the work returns have in common, `w₀` being the
state the callbacks will act on. -/
def Sys.Pre (w₀ : W) (s : Sys κ ε W) : Prop :=
  s.t.lock = { writer := false, readers := 0 } ∧ s.t.stopChan.closed = false ∧
  s.t.running = true ∧ s.t.err = none ∧ s.calls = [] ∧ s.world = w₀ ∧ ∃ w, s.pc = .fn w

/-- What the states after the work returned `e` have in common, `L` being the
callbacks registered when it returned and `w₀` the state they act on: the
calls that have returned are a part of `L` in its order, each of a callback
that can return while the lock is held. -/
def Sys.Post (call : κ → Task κ ε → W → Option W) (e : Option ε) (L : List κ) (w₀ : W) (s : Sys κ ε W) : Prop :=
  s.t.lock.readers = 0 ∧ (s.calls = [] → s.world = w₀) ∧
  (∀ g ∈ s.calls, ∃ t w₁ w₂, t.lock.writer = true ∧ call g t w₁ = some w₂) ∧
  match s.pc with
  | .fn _ => False
  | .locked e' => e' = e ∧ s.t.lock.writer = true ∧ s.t.stopChan.closed = false ∧
      s.t.running = true ∧ s.t.err = none ∧ s.calls = [] ∧ s.t.thens = L
  | .stored => s.t.lock.writer = true ∧ s.t.stopChan.closed = false ∧
      s.t.running = true ∧ s.t.err = e ∧ s.calls = [] ∧ s.t.thens = L
  | .thens rest => s.t.lock.writer = true ∧ s.t.stopChan.closed = false ∧
      s.t.running = false ∧ s.t.err = e ∧ s.calls ++ rest = L ∧ s.t.thens = L
  | .closed => s.t.lock.writer = true ∧ s.t.stopChan.closed = true ∧
      s.t.running = false ∧ s.t.err = e ∧ s.calls = L ∧ s.t.thens = L
  | .done => s.t.lock.writer = false ∧ s.t.stopChan.closed = true ∧
      s.t.running = false ∧ s.t.err = e ∧ s.calls = L ∧ L <+: s.t.thens

/-- The states an observer can see: those in which a call of `Running` or of
`Err` returns, or a receive on the channel of `StopChan` does. -/
def Sys.visible (s : Sys κ ε W) : Prop :=
  s.t.Running.isSome = true ∨ s.t.Err.isSome = true ∨ s.t.StopChan.recv.isSome = true

/-! ## A concrete program

The scenario of two callbacks that append to a shared log. -/

/-- A callback named `k` appends `k` to the log; the one named "Err" first
calls `t.Err()` on its own task. -/
def logCall (k : String) (t : Task String String) (log : List String) :
    Option (List String) :=
  if k = "Err" then t.Err.map fun _ => log ++ [k] else some (log ++ [k])

/-- The task of `Go` on work that returns `nil` at once, with the callbacks
"A" and "B" registered and the work about to return. -/
def ready : Sys String String (List String) :=
  { t := { lock := { writer := false, readers := 0 }
           stopChan := { closed := false }
           shouldStop := false
           running := true
           err := none
           thens := ["A", "B"] }
    pc := .fn (.ret none)
    world := []
    calls := [] }

/-- The state of that task while the completion sequence is in its loop, "A"
called and "B" not yet. -/
def inCallback : Sys String String (List String) :=
  { t := { lock := { writer := true, readers := 0 }
           stopChan := { closed := false }
           shouldStop := false
           running := false
           err := none
           thens := ["A", "B"] }
    pc := .thens ["B"]
    world := ["A"]
    calls := ["A"] }

/-- The state of that task after the completion sequence. -/
def finished : Sys String String (List String) :=
  { t := { lock := { writer := false, readers := 0 }
           stopChan := { closed := true }
           shouldStop := false
           running := false
           err := none
           thens := ["A", "B"] }
    pc := .done
    world := ["A", "B"]
    calls := ["A", "B"] }

/-- The state of the task of `Go` on work that returns `nil` at once, with the
callbacks "A", "Err" and "B" registered, when the completion sequence has
called "A" and is to call "Err". -/
def stuck : Sys String String (List String) :=
  { t := { lock := { writer := true, readers := 0 }
           stopChan := { closed := false }
           shouldStop := false
           running := false
           err := none
           thens := ["A", "Err", "B"] }
    pc := .thens ["Err", "B"]
    world := ["A"]
    calls := ["A"] }

/-- The state of a task with no callback after its completion sequence and a
later `Then "A"`. -/
def lateThen : Sys String String (List String) :=
  { t := { lock := { writer := false, readers := 0 }
           stopChan := { closed := true }
           shouldStop := false
           running := false
           err := none
           thens := ["A"] }
    pc := .done
    world := []
    calls := [] }

/-- Work that asks once whether to stop and returns the error "stopped" if so. -/
def askOnce : Work String :=
  .ask (.ret (some "stopped")) (.ret none)

/-- The task of `Go askOnce` after `Then "A"` and `Stop`, the query not yet made. -/
def stopRequested : Sys String String (List String) :=
  { t := { lock := { writer := false, readers := 0 }
           stopChan := { closed := false }
           shouldStop := true
           running := true
           err := none
           thens := ["A"] }
    pc := .fn askOnce
    world := []
    calls := [] }

/-! ## The methods in closed form -/

theorem Task.Running_eq (t : Task κ ε) :
    t.Running = if t.lock.writer then none else some (t.running, t) := by
  obtain ⟨⟨wr, rd⟩, c, ss, run, er, th⟩ := t
  cases wr <;> simp [Task.Running, RWMutex.RLock, RWMutex.RUnlock, bind, pure]

theorem Task.Err_eq (t : Task κ ε) :
    t.Err = if t.lock.writer then none else some (t.err, t) := by
  obtain ⟨⟨wr, rd⟩, c, ss, run, er, th⟩ := t
  cases wr <;> simp [Task.Err, RWMutex.RLock, RWMutex.RUnlock, bind, pure]

theorem Task.S_eq (t : Task κ ε) :
    t.S = if t.lock.writer then none else some (t.shouldStop, t) := by
  obtain ⟨⟨wr, rd⟩, c, ss, run, er, th⟩ := t
  cases wr <;> simp [Task.S, RWMutex.RLock, RWMutex.RUnlock, bind, pure]

theorem Task.Then_eq (t : Task κ ε) (fn : κ) :
    t.Then fn = if t.lock.writer || t.lock.readers != 0 then none
      else some { t with thens := t.thens ++ [fn] } := by
  obtain ⟨⟨wr, rd⟩, c, ss, run, er, th⟩ := t
  cases wr <;> by_cases h : rd = 0 <;>
    simp [Task.Then, RWMutex.Lock, RWMutex.Unlock, bind, pure, h]

/-! ## Runs -/

theorem Sys.exec_append (call : κ → Task κ ε → W → Option W) (s : Sys κ ε W) (tr₁ tr₂ : List (Ev κ)) :
    s.exec call (tr₁ ++ tr₂) = (s.exec call tr₁).bind fun s => s.exec call tr₂ := by
  induction tr₁ generalizing s with
  | nil => simp [Sys.exec]
  | cons ev tr ih =>
    simp only [List.cons_append, Sys.exec]
    cases s.step call ev with
    | none => simp
    | some s' => simpa using ih s'

theorem Sys.step_thens (call : κ → Task κ ε → W → Option W) {s s' : Sys κ ε W} {ev : Ev κ}
    (h : s.step call ev = some s') : s'.t.thens = s.t.thens ++ registered [ev] := by
  obtain ⟨⟨⟨wr, rd⟩, ⟨cl⟩, ss, run, er, th⟩, pc, world, calls⟩ := s
  cases ev <;>
    simp only [Sys.step, Task.Running_eq, Task.Err_eq, Task.S_eq, Task.Then_eq, Task.Stop,
      Task.StopChan, Chan.recv] at h
  case go =>
    rcases pc with (_ | _) | _ | _ | (_ | _) | _ | _ <;>
      simp only [Sys.go, Task.S_eq, RWMutex.Lock, RWMutex.Unlock, Chan.close] at h <;>
      (try split at h) <;> simp [bind, pure, Option.bind_eq_some] at h <;> (try subst h) <;>
      (try (obtain ⟨_, _, rfl⟩ := h)) <;> simp [registered]
  all_goals (try split at h) <;> simp at h <;> (try subst h) <;> simp [registered]

theorem registered_append (tr₁ tr₂ : List (Ev κ)) :
    registered (tr₁ ++ tr₂) = registered tr₁ ++ registered tr₂ := by
  induction tr₁ with
  | nil => simp [registered]
  | cons ev tr ih => cases ev <;> simp [registered, ih]

theorem Sys.exec_thens (call : κ → Task κ ε → W → Option W) {s s' : Sys κ ε W} {tr : List (Ev κ)}
    (h : s.exec call tr = some s') : s'.t.thens = s.t.thens ++ registered tr := by
  induction tr generalizing s with
  | nil => simp [Sys.exec] at h; simp [h, registered]
  | cons ev tr ih =>
    simp only [Sys.exec] at h
    cases hs : s.step call ev with
    | none => simp [hs] at h
    | some s₁ =>
      rw [hs] at h
      have h₁ := Sys.step_thens call hs
      have h₂ := ih h
      rw [h₂, h₁, List.append_assoc, ← registered_append]
      rfl

theorem Sys.step_shouldStop (call : κ → Task κ ε → W → Option W) {s s' : Sys κ ε W} {ev : Ev κ}
    (h : s.step call ev = some s') :
    s'.t.shouldStop = (s.t.shouldStop || stopCalled [ev]) := by
  obtain ⟨⟨⟨wr, rd⟩, ⟨cl⟩, ss, run, er, th⟩, pc, world, calls⟩ := s
  cases ev <;>
    simp only [Sys.step, Task.Running_eq, Task.Err_eq, Task.S_eq, Task.Then_eq, Task.Stop,
      Task.StopChan, Chan.recv] at h
  case go =>
    rcases pc with (_ | _) | _ | _ | (_ | _) | _ | _ <;>
      simp only [Sys.go, Task.S_eq, RWMutex.Lock, RWMutex.Unlock, Chan.close] at h <;>
      (try split at h) <;> simp [bind, pure, Option.bind_eq_some] at h <;> (try subst h) <;>
      (try (obtain ⟨_, _, rfl⟩ := h)) <;> simp [stopCalled]
  all_goals (try split at h) <;> simp at h <;> (try subst h) <;> simp [stopCalled]

theorem Sys.exec_shouldStop (call : κ → Task κ ε → W → Option W) {s s' : Sys κ ε W} {tr : List (Ev κ)}
    (h : s.exec call tr = some s') :
    s'.t.shouldStop = (s.t.shouldStop || stopCalled tr) := by
  induction tr generalizing s with
  | nil => simp [Sys.exec] at h; simp [h, stopCalled]
  | cons ev tr ih =>
    simp only [Sys.exec] at h
    cases hs : s.step call ev with
    | none => simp [hs] at h
    | some s₁ =>
      rw [hs] at h
      rw [ih h, Sys.step_shouldStop call hs]
      cases ev <;> simp [stopCalled]

theorem Sys.Pre_Go (fn : Work ε) (w : W) : (Go fn w : Sys κ ε W).Pre w := by
  simp [Sys.Pre, Go]

theorem Sys.Pre_step (call : κ → Task κ ε → W → Option W) {w₀ : W} {s s' : Sys κ ε W} {ev : Ev κ}
    (hs : s.Pre w₀) (h : s.step call ev = some s') :
    s'.Pre w₀ ∨ (ev = .go ∧ ∃ e, s.pc = .fn (.ret e) ∧ s'.Post call e s.t.thens w₀) := by
  obtain ⟨⟨⟨wr, rd⟩, ⟨cl⟩, ss, run, er, th⟩, pc, world, calls⟩ := s
  obtain ⟨hl, hc, hr, he, hk, hw, w, hpc⟩ := hs
  simp only [RWMutex.mk.injEq] at hl hc hr he hk hw hpc
  obtain ⟨rfl, rfl⟩ := hl
  subst hc hr he hk hw hpc
  cases ev <;>
    simp only [Sys.step, Task.Running_eq, Task.Err_eq, Task.S_eq, Task.Then_eq, Task.Stop,
      Task.StopChan, Chan.recv] at h
  case go =>
    cases w <;>
      simp [Sys.go, Task.S_eq, RWMutex.Lock, bind, pure] at h <;> subst h <;>
      simp [Sys.Pre, Sys.Post]
  all_goals simp at h <;> (try subst h) <;> simp [Sys.Pre]

theorem Sys.Post_step (call : κ → Task κ ε → W → Option W) {e : Option ε} {L : List κ} {w₀ : W}
    {s s' : Sys κ ε W} {ev : Ev κ}
    (hs : s.Post call e L w₀) (h : s.step call ev = some s') : s'.Post call e L w₀ := by
  obtain ⟨⟨⟨wr, rd⟩, ⟨cl⟩, ss, run, er, th⟩, pc, world, calls⟩ := s
  obtain ⟨hrd, hw, hret, hs⟩ := hs
  simp only at hrd hw hret
  subst hrd
  cases ev <;>
    simp only [Sys.step, Task.Running_eq, Task.Err_eq, Task.S_eq, Task.Then_eq, Task.Stop,
      Task.StopChan, Chan.recv] at h
  case go =>
    rcases pc with (_ | _) | _ | _ | (_ | ⟨f, rest⟩) | _ | _
    case thens.cons =>
      simp only [Sys.go, bind, pure, Option.bind_eq_some, Option.some.injEq] at h
      obtain ⟨w', hw', rfl⟩ := h
      simp only at hs
      obtain ⟨h₁, h₂, h₃, h₄, h₅, h₆⟩ := hs
      refine ⟨rfl, by simp, ?_, h₁, h₂, h₃, h₄, by simpa using h₅, h₆⟩
      intro g hg
      rcases List.mem_append.1 hg with hg | hg
      · exact hret g hg
      · rw [List.mem_singleton.1 hg]
        exact ⟨_, _, _, h₁, hw'⟩
    all_goals
      simp only [Sys.go, Task.S_eq, RWMutex.Lock, RWMutex.Unlock, Chan.close] at h hs <;>
      (try split at h) <;> simp [bind, pure] at h <;> (try subst h) <;>
      simp_all [Sys.Post]
  all_goals
    rcases pc with (_ | _) | _ | _ | (_ | _) | _ | _ <;>
      (try split at h) <;> simp at h <;> (try subst h) <;> simp_all [Sys.Post] <;>
      exact hs.2.2.2.2.2.trans (List.prefix_append _ _)

theorem Sys.Post_exec (call : κ → Task κ ε → W → Option W) {e : Option ε} {L : List κ} {w₀ : W}
    {s s' : Sys κ ε W} {tr : List (Ev κ)}
    (hs : s.Post call e L w₀) (h : s.exec call tr = some s') : s'.Post call e L w₀ := by
  induction tr generalizing s with
  | nil => simp [Sys.exec] at h; exact h ▸ hs
  | cons ev tr ih =>
    simp only [Sys.exec] at h
    cases hst : s.step call ev with
    | none => simp [hst] at h
    | some s₁ =>
      rw [hst] at h
      exact ih (Sys.Post_step call hs hst) h

/-- A run from a state before the work returns either stays before it, or
splits at the step in which the work returns. -/
theorem Sys.Pre_exec (call : κ → Task κ ε → W → Option W) {w₀ : W} {s s' : Sys κ ε W} {tr : List (Ev κ)}
    (hs : s.Pre w₀) (h : s.exec call tr = some s') :
    s'.Pre w₀ ∨ ∃ tr₁ tr₂ s₁ e, tr = tr₁ ++ .go :: tr₂ ∧ s.exec call tr₁ = some s₁ ∧
      s₁.Pre w₀ ∧ s₁.pc = .fn (.ret e) ∧ s₁.exec call (.go :: tr₂) = some s' ∧
      s'.Post call e s₁.t.thens w₀ := by
  induction tr generalizing s with
  | nil => simp [Sys.exec] at h; exact Or.inl (h ▸ hs)
  | cons ev tr ih =>
    have h' := h
    simp only [Sys.exec] at h
    cases hst : s.step call ev with
    | none => simp [hst] at h
    | some s₁ =>
      rw [hst] at h
      rcases Sys.Pre_step call hs hst with hp | ⟨rfl, e, hpc, hpost⟩
      · rcases ih hp h with hp' | ⟨tr₁, tr₂, s₂, e, rfl, h₁, hp₂, hpc, h₂, hpost⟩
        · exact Or.inl hp'
        · refine Or.inr ⟨ev :: tr₁, tr₂, s₂, e, rfl, ?_, hp₂, hpc, h₂, hpost⟩
          simp [Sys.exec, hst, h₁]
      · exact Or.inr ⟨[], tr, s, e, rfl, rfl, hs, hpc, h', Sys.Post_exec call hpost h⟩

/-- The loop of lines 34-36 run by the goroutine alone: it comes to its end
when the callbacks return in turn, and only then. -/
theorem Sys.exec_loop (call : κ → Task κ ε → W → Option W) (t : Task κ ε)
    (rest calls : List κ) (w : W) :
    (Sys.mk t (.thens rest) w calls).exec call (goSteps rest.length) =
      (callAll call t rest w).map fun w => Sys.mk t (.thens []) w (calls ++ rest) := by
  induction rest generalizing calls w with
  | nil => simp [goSteps, Sys.exec, callAll]
  | cons f rest ih =>
    show (Sys.exec call _ (Ev.go :: goSteps rest.length)) = _
    rw [Sys.exec]
    simp only [Sys.step, Sys.go, callAll, bind, pure]
    cases hf : call f t w with
    | none => simp
    | some w' =>
      have h := ih (calls ++ [f]) w'
      rw [List.append_assoc] at h
      simpa using h

theorem goSteps_add (m n : Nat) : (goSteps (m + n) : List (Ev κ)) = goSteps m ++ goSteps n := by
  exact List.replicate_add m n Ev.go

/-- The completion sequence (lines 29-39) run by the goroutine alone from a
state in which the work is about to return `e`: it comes to its end when the
callbacks return in turn, and only then. -/
theorem Sys.exec_completion (call : κ → Task κ ε → W → Option W) {w₀ : W} {s : Sys κ ε W}
    {e : Option ε} (hs : s.Pre w₀) (hpc : s.pc = .fn (.ret e)) :
    s.exec call (goSteps (s.t.thens.length + 5)) =
      (callAll call (s.t.inLoop e) s.t.thens w₀).map fun w =>
        { t := { s.t with err := e, running := false, stopChan := { closed := true } }
          pc := .done
          world := w
          calls := s.t.thens } := by
  obtain ⟨⟨⟨wr, rd⟩, ⟨cl⟩, ss, run, er, th⟩, pc, world, calls⟩ := s
  obtain ⟨hl, hc, hr, he, hk, hw, w, -⟩ := hs
  simp only [RWMutex.mk.injEq] at hl hc hr he hk hw hpc
  obtain ⟨rfl, rfl⟩ := hl
  subst hc hr he hk hw hpc
  have h5 : th.length + 5 = 3 + (th.length + 2) := by omega
  have h3 : (Sys.mk (Task.mk ⟨false, 0⟩ ⟨false⟩ ss true none th) (.fn (.ret e)) world
      ([] : List κ)).exec call (goSteps 3) =
      some (Sys.mk (Task.mk ⟨true, 0⟩ ⟨false⟩ ss false e th) (.thens th) world []) := by
    simp [goSteps, List.replicate, Sys.exec, Sys.step, Sys.go, RWMutex.Lock, bind, pure]
  rw [h5, goSteps_add, Sys.exec_append, h3, Option.some_bind, goSteps_add, Sys.exec_append,
    Sys.exec_loop]
  simp only [Task.inLoop]
  cases callAll call (Task.mk ⟨true, 0⟩ ⟨false⟩ ss false e th) th world with
  | none => simp
  | some w' =>
    simp [goSteps, List.replicate, Sys.exec, Sys.step, Sys.go, RWMutex.Unlock, Chan.close,
      bind, pure]

/-- Callbacks that return whenever called return in turn. -/
theorem callAll_isSome (call : κ → Task κ ε → W → Option W) (t : Task κ ε) (L : List κ)
    (w : W) (h : ∀ f ∈ L, Returns call f) : (callAll call t L w).isSome = true := by
  induction L generalizing w with
  | nil => simp [callAll]
  | cons f rest ih =>
    have hf := h f (List.mem_cons_self f rest) t w
    obtain ⟨w', hw'⟩ := Option.isSome_iff_exists.1 hf
    simp only [callAll, hw', Option.some_bind]
    exact ih w' fun g hg => h g (List.mem_cons_of_mem f hg)

/-- The step in which the work returns `e` starts the completion sequence. -/
theorem Sys.Post_of_ret (call : κ → Task κ ε → W → Option W) {w₀ : W} {s s' : Sys κ ε W} {e : Option ε}
    (hs : s.Pre w₀) (hpc : s.pc = .fn (.ret e)) (h : s.step call .go = some s') :
    s'.Post call e s.t.thens w₀ := by
  rcases Sys.Pre_step call hs h with hp | ⟨-, e', hpc', hpost⟩
  · obtain ⟨w', hw'⟩ := hp.2.2.2.2.2.2
    obtain ⟨⟨⟨wr, rd⟩, ⟨cl⟩, ss, run, er, th⟩, pc, world, calls⟩ := s
    simp only at hpc
    subst hpc
    simp only [Sys.step, Sys.go, RWMutex.Lock] at h
    split at h <;> simp [bind, pure] at h
    subst h
    simp at hw'
  · rw [hpc] at hpc'
    cases hpc'
    exact hpost

/-- What a state after the work returned tells an observer. -/
theorem Sys.Post_facts (call : κ → Task κ ε → W → Option W) {e : Option ε} {L : List κ} {w₀ : W}
    {s : Sys κ ε W} (hs : s.Post call e L w₀) :
    s.calls <+: L ∧ L <+: s.t.thens ∧
    (s.t.stopChan.closed = true → s.calls = L) ∧
    (s.t.stopChan.closed = true → s.t.running = false) ∧
    (s.t.running = false → s.t.err = e) ∧
    (s.t.lock.writer = false → s.pc = .done) ∧
    (s.pc = .done → s.t.lock.writer = false ∧ s.t.stopChan.closed = true ∧ s.calls = L) ∧
    (∀ w, s.pc ≠ .fn w) ∧
    s.t.lock.writer = s.pc.holdsLock ∧ s.t.lock.readers = 0 ∧
    (∀ g ∈ s.calls, ∃ t w₁ w₂, t.lock.writer = true ∧ call g t w₁ = some w₂) := by
  obtain ⟨⟨⟨wr, rd⟩, ⟨cl⟩, ss, run, er, th⟩, pc, world, calls⟩ := s
  obtain ⟨hrd, -, hret, hs⟩ := hs
  simp only at hrd hret
  have key : calls <+: L ∧ L <+: th ∧ (cl = true → calls = L) ∧ (cl = true → run = false) ∧
      (run = false → er = e) ∧ (wr = false → pc = .done) ∧
      (pc = .done → wr = false ∧ cl = true ∧ calls = L) ∧ (∀ w, pc ≠ .fn w) ∧
      wr = pc.holdsLock ∧ rd = 0 := by
    clear hret
    rcases pc with _ | _ | _ | rest | _ | _
    case fn => exact hs.elim
    case thens =>
      have hp : calls <+: L := ⟨rest, hs.2.2.2.2.1⟩
      simp_all [Pc.holdsLock]
    all_goals simp_all [Pc.holdsLock]
  obtain ⟨h₁, h₂, h₃, h₄, h₅, h₆, h₇, h₈, h₉, h₁₀⟩ := key
  exact ⟨h₁, h₂, h₃, h₄, h₅, h₆, h₇, h₈, h₉, h₁₀, hret⟩

/-- What a state before the work returns tells an observer. -/
theorem Sys.Pre_facts {w₀ : W} {s : Sys κ ε W} (hs : s.Pre w₀) :
    s.t.lock.writer = false ∧ s.t.lock.readers = 0 ∧ s.pc.holdsLock = false ∧
    s.t.stopChan.closed = false ∧ s.t.running = true ∧ s.t.err = none ∧ s.calls = [] ∧
    s.world = w₀ := by
  obtain ⟨hl, hc, hr, he, hk, hw, w, hpc⟩ := hs
  simp [hl, hc, hr, he, hk, hw, hpc, Pc.holdsLock]

/-- The states of the program: those before the work returns and those after. -/
theorem Sys.reachable (call : κ → Task κ ε → W → Option W) {fn : Work ε} {w : W} {tr : List (Ev κ)}
    {s : Sys κ ε W} (h : (Go fn w).exec call tr = some s) :
    s.Pre w ∨ ∃ e L, s.Post call e L w := by
  rcases Sys.Pre_exec call (Sys.Pre_Go fn w) h with hp | ⟨_, _, s₁, e, _, _, _, _, _, hpost⟩
  · exact Or.inl hp
  · exact Or.inr ⟨e, s₁.t.thens, hpost⟩

/-- A reachable state in which the goroutine is inside `fn` is a state before
the work returns. -/
theorem Sys.Pre_of_fn (call : κ → Task κ ε → W → Option W) {fn : Work ε} {w : W} {tr : List (Ev κ)}
    {s : Sys κ ε W} (h : (Go fn w).exec call tr = some s) {w' : Work ε}
    (hpc : s.pc = .fn w') : s.Pre w := by
  rcases Sys.reachable call h with hp | ⟨e, L, hpost⟩
  · exact hp
  · exact absurd hpc ((Sys.Post_facts call hpost).2.2.2.2.2.2.2.1 w')

/-- No step takes `running` from false to true, and the only step that changes
it is line 31 of the goroutine of `Go`. -/
theorem Sys.step_running (call : κ → Task κ ε → W → Option W) {s s' : Sys κ ε W} {ev : Ev κ}
    (h : s.step call ev = some s') :
    (s.t.running = false → s'.t.running = false) ∧
    (s'.t.running ≠ s.t.running → ev = .go ∧ s.pc = .stored) := by
  obtain ⟨⟨⟨wr, rd⟩, ⟨cl⟩, ss, run, er, th⟩, pc, world, calls⟩ := s
  cases ev <;>
    simp only [Sys.step, Task.Running_eq, Task.Err_eq, Task.S_eq, Task.Then_eq, Task.Stop,
      Task.StopChan, Chan.recv] at h
  case go =>
    rcases pc with (_ | _) | _ | _ | (_ | _) | _ | _ <;>
      simp only [Sys.go, Task.S_eq, RWMutex.Lock, RWMutex.Unlock, Chan.close] at h <;>
      (try split at h) <;> simp [bind, pure, Option.bind_eq_some] at h <;> (try subst h) <;>
      (try (obtain ⟨_, _, rfl⟩ := h)) <;> simp
  all_goals (try split at h) <;> simp at h <;> (try subst h) <;> simp

/-- No step reopens the channel. -/
theorem Sys.step_closed (call : κ → Task κ ε → W → Option W) {s s' : Sys κ ε W} {ev : Ev κ}
    (h : s.step call ev = some s') (hc : s.t.stopChan.closed = true) :
    s'.t.stopChan.closed = true := by
  obtain ⟨⟨⟨wr, rd⟩, ⟨cl⟩, ss, run, er, th⟩, pc, world, calls⟩ := s
  simp only at hc
  subst hc
  cases ev <;>
    simp only [Sys.step, Task.Running_eq, Task.Err_eq, Task.S_eq, Task.Then_eq, Task.Stop,
      Task.StopChan, Chan.recv] at h
  case go =>
    rcases pc with (_ | _) | _ | _ | (_ | _) | _ | _ <;>
      simp only [Sys.go, Task.S_eq, RWMutex.Lock, RWMutex.Unlock, Chan.close] at h <;>
      (try split at h) <;> simp [bind, pure, Option.bind_eq_some] at h <;> (try subst h) <;>
      (try (obtain ⟨_, _, rfl⟩ := h)) <;> simp
  all_goals (try split at h) <;> simp at h <;> (try subst h) <;> simp

theorem Sys.exec_closed (call : κ → Task κ ε → W → Option W) {s s' : Sys κ ε W} {tr : List (Ev κ)}
    (h : s.exec call tr = some s') (hc : s.t.stopChan.closed = true) :
    s'.t.stopChan.closed = true := by
  induction tr generalizing s with
  | nil => simp [Sys.exec] at h; exact h ▸ hc
  | cons ev tr ih =>
    simp only [Sys.exec] at h
    cases hst : s.step call ev with
    | none => simp [hst] at h
    | some s₁ =>
      rw [hst] at h
      exact ih h (Sys.step_closed call hst hc)

/-- After the goroutine of `Go` has exited, no event calls a callback. -/
theorem Sys.step_done (call : κ → Task κ ε → W → Option W) {s s' : Sys κ ε W} {ev : Ev κ}
    (h : s.step call ev = some s') (hpc : s.pc = .done) :
    s'.pc = .done ∧ s'.calls = s.calls ∧ s'.world = s.world := by
  obtain ⟨⟨⟨wr, rd⟩, ⟨cl⟩, ss, run, er, th⟩, pc, world, calls⟩ := s
  simp only at hpc
  subst hpc
  cases ev <;>
    simp only [Sys.step, Sys.go, Task.Running_eq, Task.Err_eq, Task.S_eq, Task.Then_eq,
      Task.Stop, Task.StopChan, Chan.recv] at h
  all_goals (try split at h) <;> simp at h <;> (try subst h) <;> simp

theorem Sys.exec_done (call : κ → Task κ ε → W → Option W) {s s' : Sys κ ε W} {tr : List (Ev κ)}
    (h : s.exec call tr = some s') (hpc : s.pc = .done) :
    s'.pc = .done ∧ s'.calls = s.calls ∧ s'.world = s.world := by
  induction tr generalizing s with
  | nil => simp [Sys.exec] at h; subst h; exact ⟨hpc, rfl, rfl⟩
  | cons ev tr ih =>
    simp only [Sys.exec] at h
    cases hst : s.step call ev with
    | none => simp [hst] at h
    | some s₁ =>
      rw [hst] at h
      obtain ⟨h₁, h₂, h₃⟩ := Sys.step_done call hst hpc
      obtain ⟨h₄, h₅, h₆⟩ := ih h h₁
      exact ⟨h₄, h₅.trans h₂, h₆.trans h₃⟩

/-- An event other than a step of the goroutine of `Go` leaves the lock, the
position of the goroutine, the callbacks called and their state as they are. -/
theorem Sys.step_other (call : κ → Task κ ε → W → Option W) {s s' : Sys κ ε W} {ev : Ev κ}
    (h : s.step call ev = some s') (hev : ev ≠ .go) :
    s'.t.lock = s.t.lock ∧ s'.pc = s.pc ∧ s'.calls = s.calls ∧ s'.world = s.world ∧
    s'.t.stopChan = s.t.stopChan := by
  obtain ⟨⟨⟨wr, rd⟩, ⟨cl⟩, ss, run, er, th⟩, pc, world, calls⟩ := s
  cases ev <;>
    simp only [Sys.step, Task.Running_eq, Task.Err_eq, Task.S_eq, Task.Then_eq, Task.Stop,
      Task.StopChan, Chan.recv] at h
  case go => exact absurd rfl hev
  all_goals (try split at h) <;> simp at h <;> (try subst h) <;> simp

/-- While the completion sequence waits for a callback that does not return
under the lock, nothing moves it: the calls made, the channel and the lock stay
as they are. -/
theorem Sys.exec_waiting (call : κ → Task κ ε → W → Option W) {s s' : Sys κ ε W}
    {tr : List (Ev κ)} {f : κ} {rest : List κ} (hpc : s.pc = .thens (f :: rest))
    (hw : s.t.lock.writer = true) (hf : Waits call f) (h : s.exec call tr = some s') :
    s'.pc = s.pc ∧ s'.calls = s.calls ∧ s'.t.stopChan = s.t.stopChan ∧
    s'.step call .go = none := by
  induction tr generalizing s with
  | nil =>
    simp only [Sys.exec, Option.some.injEq] at h
    subst h
    exact ⟨rfl, rfl, rfl, by simp [Sys.step, Sys.go, hpc, hf s.t s.world hw, bind]⟩
  | cons ev tr ih =>
    simp only [Sys.exec] at h
    cases hst : s.step call ev with
    | none => simp [hst] at h
    | some s₁ =>
      rw [hst] at h
      by_cases hev : ev = .go
      · subst hev
        simp [Sys.step, Sys.go, hpc, hf s.t s.world hw, bind] at hst
      · obtain ⟨h₁, h₂, h₃, -, h₅⟩ := Sys.step_other call hst hev
        obtain ⟨h₆, h₇, h₈, h₉⟩ := ih (h₂ ▸ hpc) (h₁ ▸ hw) h
        exact ⟨h₆.trans h₂, h₇.trans h₃, h₈.trans h₅, h₉⟩

/-- C1, as stated, fails: with "A", "Err" and "B" registered before the work
returns, the completion sequence calls "A" and then "Err", which calls
`t.Err()` on its own task under the write lock and does not return; the
goroutine has no further step, and in every state reached from there "B" has
not been called and `stopChan` is not closed. -/
theorem C1_counterexample :
    (Go (.ret none) []).exec logCall ([.Then "A", .Then "Err", .Then "B"] ++ goSteps 4) =
      some stuck ∧
    stuck.calls = ["A"] ∧ stuck.step logCall .go = none ∧
    ∀ tr s', stuck.exec logCall tr = some s' →
      s'.calls = ["A"] ∧ "B" ∉ s'.calls ∧ s'.t.stopChan.closed = false ∧
      s'.step logCall .go = none := by
  refine ⟨by decide, by decide, by decide, ?_⟩
  intro tr s' h
  have hf : Waits logCall "Err" := by
    intro t w hw
    simp [logCall, Task.Err_eq, hw]
  obtain ⟨-, h₂, h₃, h₄⟩ := Sys.exec_waiting logCall
    (show stuck.pc = .thens ("Err" :: ["B"]) from rfl) rfl hf h
  refine ⟨h₂, ?_, ?_, h₄⟩
  · rw [h₂]; decide
  · rw [h₃]; rfl

/-- C1, amended: in a state reached from `Go` in which the work is about to
return, the task holds the callbacks registered so far, in the order of their
`Then` calls, and none has been called; if each of them returns whenever
called, the completion sequence runs to its end and calls exactly these, each
once and in that order, leaving the state they produce in turn; whatever the
callbacks do and whatever is interleaved or follows, the calls that have
returned are a part of that list from its start, in its order, the whole of it
once `stopChan` is closed; and a registered callback that does not return
under the lock is never among them and keeps `stopChan` open for ever. -/
theorem C1_callbacks_once_in_order (call : κ → Task κ ε → W → Option W) (fn : Work ε) (w : W)
    (tr : List (Ev κ)) (s : Sys κ ε W) (e : Option ε)
    (hrun : (Go fn w).exec call tr = some s) (hpc : s.pc = .fn (.ret e)) :
    s.t.thens = registered tr ∧ s.calls = [] ∧
    ((∀ f ∈ registered tr, Returns call f) →
      ∃ s', s.exec call (goSteps ((registered tr).length + 5)) = some s' ∧ s'.pc = .done ∧
        s'.t.stopChan.closed = true ∧ s'.calls = registered tr ∧
        callAll call (s.t.inLoop e) (registered tr) w = some s'.world) ∧
    (∀ tr' s', s.exec call (.go :: tr') = some s' →
      s'.calls <+: registered tr ∧
      (s'.t.stopChan.closed = true → s'.calls = registered tr) ∧
      ∀ f ∈ registered tr, Waits call f → f ∉ s'.calls ∧ s'.t.stopChan.closed = false) := by
  have hpre := Sys.Pre_of_fn call hrun hpc
  have hth : s.t.thens = registered tr := by
    simpa [Go] using Sys.exec_thens call hrun
  refine ⟨hth, (Sys.Pre_facts hpre).2.2.2.2.2.2.1, ?_, ?_⟩
  · intro hret
    have hc := Sys.exec_completion call hpre hpc
    rw [hth] at hc
    obtain ⟨w', hw'⟩ := Option.isSome_iff_exists.1
      (callAll_isSome call (s.t.inLoop e) (registered tr) w hret)
    rw [hw', Option.map_some'] at hc
    exact ⟨_, hc, rfl, rfl, rfl, hw'⟩
  · intro tr' s' h
    simp only [Sys.exec] at h
    cases hst : s.step call .go with
    | none => simp [hst] at h
    | some s₂ =>
      rw [hst] at h
      have hpost := Sys.Post_exec call (Sys.Post_of_ret call hpre hpc hst) h
      have hf := Sys.Post_facts call hpost
      rw [hth] at hf
      have hnot : ∀ f, Waits call f → f ∉ s'.calls := by
        intro f hwait hmem
        obtain ⟨t, w₁, w₂, ht, hcall⟩ := hf.2.2.2.2.2.2.2.2.2.2 f hmem
        rw [hwait t w₁ ht] at hcall
        cases hcall
      refine ⟨hf.1, hf.2.2.1, fun f hmem hwait => ⟨hnot f hwait, ?_⟩⟩
      cases hc : s'.t.stopChan.closed with
      | false => rfl
      | true => exact absurd (hf.2.2.1 hc ▸ hmem) (hnot f hwait)

/-- Witness of C1: work that returns `nil` with "A" then "B" registered leaves
the log `["A", "B"]`. -/
theorem C1_callbacks_once_in_order_witness :
    (Go (.ret none) []).exec logCall [.Then "A", .Then "B"] = some ready ∧
    ready.pc = .fn (.ret none) ∧ (∀ f ∈ ["A", "B"], Returns logCall f) ∧
    ∃ s', ready.exec logCall (goSteps 7) = some s' ∧ s'.pc = .done ∧
      s'.t.stopChan.closed = true ∧ s'.calls = ["A", "B"] ∧
      callAll logCall (ready.t.inLoop none) ["A", "B"] [] = some s'.world :=
  have hret : ∀ f ∈ ["A", "B"], Returns logCall f := by
    intro f hf t w
    simp only [List.mem_cons, List.mem_singleton, List.not_mem_nil, or_false] at hf
    rcases hf with rfl | rfl <;> simp [logCall]
  ⟨by decide, by decide, hret,
    (C1_callbacks_once_in_order logCall (.ret none) [] [.Then "A", .Then "B"] ready none
      (by decide) (by decide)).2.2.1 hret⟩

/-- C3: in every state reached from `Go`, `Running()` returns true while the
goroutine is inside the work function (the state `Go` returns included), a
call of `Running()` that returns gives true only then, and it returns false
once the completion sequence is over; and from any state at all, no event takes
`running` from false to true, the one event that changes it being line 31 of
the goroutine. -/
theorem C3_running_lifecycle (call : κ → Task κ ε → W → Option W) (fn : Work ε) (w : W)
    (tr : List (Ev κ)) (s : Sys κ ε W)
    (hrun : (Go fn w).exec call tr = some s) :
    (Go fn w : Sys κ ε W).t.Running = some (true, (Go fn w : Sys κ ε W).t) ∧
    (∀ w', s.pc = .fn w' → s.t.Running = some (true, s.t)) ∧
    (∀ r, s.t.Running = some r → (r.1 = true ↔ ∃ w', s.pc = .fn w')) ∧
    (s.pc = .done → s.t.Running = some (false, s.t)) ∧
    (∀ (s₀ s' : Sys κ ε W) (ev : Ev κ), s₀.step call ev = some s' →
      (s₀.t.running = false → s'.t.running = false) ∧
      (s'.t.running ≠ s₀.t.running → ev = .go ∧ s₀.pc = .stored)) := by
  refine ⟨by simp [Task.Running_eq, Go], ?_, ?_, ?_, fun _ _ _ h => Sys.step_running call h⟩
  · intro w' hpc
    obtain ⟨hw, -, -, -, hr, -⟩ := Sys.Pre_facts (Sys.Pre_of_fn call hrun hpc)
    simp [Task.Running_eq, hw, hr]
  · intro r hr
    rcases Sys.reachable call hrun with hp | ⟨e, L, hpost⟩
    · obtain ⟨hw, -, -, -, hrun', -⟩ := Sys.Pre_facts hp
      simp [Task.Running_eq, hw, hrun'] at hr
      subst hr
      simpa using hp.2.2.2.2.2.2
    · obtain ⟨-, -, -, hcr, -, hwd, hd, hne, -⟩ := Sys.Post_facts call hpost
      rw [Task.Running_eq] at hr
      split at hr
      · simp at hr
      · rename_i hw
        obtain ⟨-, hc, -⟩ := hd (hwd (by simpa using hw))
        simp only [Option.some.injEq] at hr
        subst hr
        simp only [hcr hc, Bool.false_eq_true, false_iff, not_exists]
        exact hne
  · intro hdone
    rcases Sys.reachable call hrun with hp | ⟨e, L, hpost⟩
    · obtain ⟨w', hw'⟩ := hp.2.2.2.2.2.2
      rw [hw'] at hdone
      cases hdone
    · obtain ⟨-, -, -, hcr, -, -, hd, -⟩ := Sys.Post_facts call hpost
      obtain ⟨hw, hc, -⟩ := hd hdone
      simp [Task.Running_eq, hw, hcr hc]

/-- Witness of C3: the task with "A" and "B" registered is running, and is not
after its completion sequence. -/
theorem C3_running_lifecycle_witness :
    (Go (.ret none) []).exec logCall ([.Then "A", .Then "B"] ++ goSteps 7) = some finished ∧
    ready.t.Running = some (true, ready.t) ∧ finished.t.Running = some (false, finished.t) :=
  ⟨by decide, by decide,
    (C3_running_lifecycle logCall (.ret none) [] ([.Then "A", .Then "B"] ++ goSteps 7)
      finished (by decide)).2.2.2.1 (by decide)⟩

/-- C4, as stated, fails: after the completion sequence of a task with no
callback, `Then "A"` registers "A"; in the state reached `Running()` returns
false and the channel is closed, yet the registered callback "A" has not been
called. -/
theorem C4_counterexample :
    (Go (.ret none) []).exec logCall (goSteps 5 ++ [.Then "A"]) = some lateThen ∧
    lateThen.t.Running = some (false, lateThen.t) ∧ lateThen.t.StopChan.recv = some () ∧
    "A" ∈ lateThen.t.thens ∧ "A" ∉ lateThen.calls :=
  ⟨by decide, by decide, by decide, by decide, by decide⟩

/-- C4, amended: in every state reached from `Go`, if a call of `Running` or
`Err` or a receive on the channel can return then the channel is closed iff
`running` is false; while `running` is true the channel is open; when
`running` is false the run splits at the step in which the work returned some
`e`, `err` holds `e`, and in a state an observer can see the callbacks called
are exactly those registered before that step, in order; and once the channel
is closed it stays closed. -/
theorem C4_completion_atomic (call : κ → Task κ ε → W → Option W) (fn : Work ε) (w : W)
    (tr : List (Ev κ)) (s : Sys κ ε W)
    (hrun : (Go fn w).exec call tr = some s) :
    (s.visible → (s.t.stopChan.closed = true ↔ s.t.running = false)) ∧
    (s.t.running = true → s.t.stopChan.closed = false) ∧
    (s.t.running = false → ∃ tr₁ tr₂ s₁ e, tr = tr₁ ++ .go :: tr₂ ∧
      (Go fn w).exec call tr₁ = some s₁ ∧ s₁.pc = .fn (.ret e) ∧ s.t.err = e ∧
      (s.visible → s.calls = registered tr₁)) ∧
    (s.t.stopChan.closed = true →
      ∀ tr' s', s.exec call tr' = some s' → s'.t.stopChan.closed = true) := by
  have hvis : ∀ {e L}, s.Post call e L w → s.visible → s.t.stopChan.closed = true := by
    intro e L hpost hv
    obtain ⟨-, -, -, -, -, hwd, hd, -⟩ := Sys.Post_facts call hpost
    have hw : s.t.lock.writer = false ∨ s.t.stopChan.closed = true := by
      rcases hv with hv | hv | hv
      · rw [Task.Running_eq] at hv
        split at hv
        · simp at hv
        · rename_i hw; exact Or.inl (by simpa using hw)
      · rw [Task.Err_eq] at hv
        split at hv
        · simp at hv
        · rename_i hw; exact Or.inl (by simpa using hw)
      · simp only [Task.StopChan, Chan.recv] at hv
        split at hv
        · rename_i hc; exact Or.inr hc
        · simp at hv
    rcases hw with hw | hc
    · exact (hd (hwd hw)).2.1
    · exact hc
  refine ⟨?_, ?_, ?_, fun hc tr' s' h => Sys.exec_closed call h hc⟩
  · intro hv
    rcases Sys.reachable call hrun with hp | ⟨e, L, hpost⟩
    · obtain ⟨-, -, -, hc, hr, -⟩ := Sys.Pre_facts hp
      simp [hc, hr]
    · have hc := hvis hpost hv
      simp [hc, (Sys.Post_facts call hpost).2.2.2.1 hc]
  · intro hr
    rcases Sys.reachable call hrun with hp | ⟨e, L, hpost⟩
    · exact (Sys.Pre_facts hp).2.2.2.1
    · obtain ⟨-, -, -, hcr, -⟩ := Sys.Post_facts call hpost
      cases hc : s.t.stopChan.closed with
      | false => rfl
      | true => rw [hcr hc] at hr; cases hr
  · intro hr
    rcases Sys.Pre_exec call (Sys.Pre_Go fn w) hrun with
      hp | ⟨tr₁, tr₂, s₁, e, htr, h₁, -, hpc, -, hpost⟩
    · rw [(Sys.Pre_facts hp).2.2.2.2.1] at hr
      cases hr
    · refine ⟨tr₁, tr₂, s₁, e, htr, h₁, hpc, (Sys.Post_facts call hpost).2.2.2.2.1 hr, ?_⟩
      intro hv
      have hth : s₁.t.thens = registered tr₁ := by
        simpa [Go] using Sys.exec_thens call h₁
      rw [← hth]
      exact (Sys.Post_facts call hpost).2.2.1 (hvis hpost hv)

/-- Witness of C4: after the completion sequence of the task with "A" and "B"
registered, the channel is closed, `running` is false, and the callbacks
called are "A" then "B". -/
theorem C4_completion_atomic_witness :
    (Go (.ret none) []).exec logCall ([.Then "A", .Then "B"] ++ goSteps 7) = some finished ∧
    (finished.visible → (finished.t.stopChan.closed = true ↔ finished.t.running = false)) :=
  ⟨by decide,
    (C4_completion_atomic logCall (.ret none) [] ([.Then "A", .Then "B"] ++ goSteps 7)
      finished (by decide)).1⟩

/-- C5: in every state reached from `Go` the stop flag is true exactly when
the run holds a call of `Stop`; the should-stop closure returns that value
whenever it returns, it does return while the goroutine is inside the work
function and after the completion sequence, and a query of the work function
goes on with that value. -/
theorem C5_should_stop_is_flag (call : κ → Task κ ε → W → Option W) (fn : Work ε) (w : W)
    (tr : List (Ev κ)) (s : Sys κ ε W)
    (hrun : (Go fn w).exec call tr = some s) :
    s.t.shouldStop = stopCalled tr ∧
    (∀ r, s.t.S = some r → r = (stopCalled tr, s.t)) ∧
    (s.pc.holdsLock = false → s.t.S = some (stopCalled tr, s.t)) ∧
    (∀ yes no, s.pc = .fn (.ask yes no) →
      s.step call .go = some { s with pc := .fn (if stopCalled tr then yes else no) }) := by
  have hflag : s.t.shouldStop = stopCalled tr := by
    simpa [Go] using Sys.exec_shouldStop call hrun
  have hlock : s.t.lock.writer = s.pc.holdsLock := by
    rcases Sys.reachable call hrun with hp | ⟨e, L, hpost⟩
    · obtain ⟨hw, -, hh, -⟩ := Sys.Pre_facts hp
      rw [hw, hh]
    · exact (Sys.Post_facts call hpost).2.2.2.2.2.2.2.2.1
  refine ⟨hflag, ?_, ?_, ?_⟩
  · intro r hr
    rw [Task.S_eq] at hr
    split at hr
    · simp at hr
    · simp only [Option.some.injEq] at hr
      rw [← hr, hflag]
  · intro hh
    simp [Task.S_eq, hlock, hh, hflag]
  · intro yes no hpc
    have hh : s.pc.holdsLock = false := by rw [hpc]; rfl
    rw [hpc] at hlock
    simp [Sys.step, Sys.go, hpc, Task.S_eq, hlock, Pc.holdsLock, hflag, bind, pure]

/-- Witness of C5: after `Stop` the work function's query reads true. -/
theorem C5_should_stop_is_flag_witness :
    (Go askOnce []).exec logCall [.Then "A", .Stop] = some stopRequested ∧
    stopRequested.t.S = some (true, stopRequested.t) ∧
    stopRequested.step logCall .go =
      some { stopRequested with pc := .fn (.ret (some "stopped")) } :=
  ⟨by decide,
    (C5_should_stop_is_flag logCall askOnce [] [.Then "A", .Stop] stopRequested
      (by decide)).2.2.1 (by decide),
    (C5_should_stop_is_flag logCall askOnce [] [.Then "A", .Stop] stopRequested
      (by decide)).2.2.2 (.ret (some "stopped")) (.ret none) (by decide)⟩

/-- C6: `Stop` sets the stop flag and leaves the lock, the channel, `running`,
`err` and the callback list as they are, so a second `Stop` changes nothing;
as an event it is possible in every state, calls no callback and does not move
the goroutine of `Go`. -/
theorem C6_stop_frame (call : κ → Task κ ε → W → Option W) (t : Task κ ε) (s : Sys κ ε W) :
    t.Stop = { t with shouldStop := true } ∧
    t.Stop.Stop = t.Stop ∧
    (t.Stop.lock = t.lock ∧ t.Stop.stopChan = t.stopChan ∧ t.Stop.running = t.running ∧
      t.Stop.err = t.err ∧ t.Stop.thens = t.thens) ∧
    (∃ s', s.step call .Stop = some s' ∧ s'.t = s.t.Stop ∧ s'.pc = s.pc ∧
      s'.calls = s.calls ∧ s'.world = s.world) :=
  ⟨rfl, rfl, ⟨rfl, rfl, rfl, rfl, rfl⟩, _, rfl, rfl, rfl, rfl, rfl⟩

/-- C7: in every state reached from `Go` in which the goroutine is still
inside the work function, `Err()` returns `nil`. -/
theorem C7_err_nil_before_return (call : κ → Task κ ε → W → Option W) (fn : Work ε) (w : W)
    (tr : List (Ev κ)) (s : Sys κ ε W) (w' : Work ε)
    (hrun : (Go fn w).exec call tr = some s) (hpc : s.pc = .fn w') :
    s.t.Err = some (none, s.t) := by
  obtain ⟨hw, -, -, -, -, he, -⟩ := Sys.Pre_facts (Sys.Pre_of_fn call hrun hpc)
  simp [Task.Err_eq, hw, he]

/-- Witness of C7: `Err()` on the task of `Go askOnce` after `Then "A"` and `Stop`. -/
theorem C7_err_nil_before_return_witness :
    (Go askOnce []).exec logCall [.Then "A", .Stop] = some stopRequested ∧
    stopRequested.pc = .fn askOnce ∧
    stopRequested.t.Err = some (none, stopRequested.t) :=
  ⟨by decide, by decide,
    C7_err_nil_before_return logCall askOnce [] [.Then "A", .Stop] stopRequested askOnce
      (by decide) (by decide)⟩

/-- C8, as stated, fails: in the state reached when the completion sequence is
in its loop, "A" called and "B" not yet, the goroutine of `Go` holds the write
lock, and none of `Running`, `Err`, `Then` and the should-stop closure can
return. -/
theorem C8_counterexample :
    (Go (.ret none) []).exec logCall ([.Then "A", .Then "B"] ++ goSteps 4) = some inCallback ∧
    inCallback.t.Running = none ∧ inCallback.t.Err = none ∧ inCallback.t.S = none ∧
    inCallback.t.Then "C" = none :=
  ⟨by decide, by decide, by decide, by decide, by decide⟩

/-- C8, amended: in every state reached from `Go`, `Stop` and `StopChan`
return; the write lock is held exactly when the goroutine of `Go` is in its
completion sequence (lines 29-39) and no read lock is held; outside the
completion sequence `Running`, `Err`, the should-stop closure and `Then`
return; inside it none of them does, and no event but a step of the goroutine
itself changes the lock or moves the goroutine. -/
theorem C8_blocking (call : κ → Task κ ε → W → Option W) (fn : Work ε) (w : W)
    (tr : List (Ev κ)) (s : Sys κ ε W)
    (hrun : (Go fn w).exec call tr = some s) :
    (∃ s', s.step call .Stop = some s') ∧ (∃ s', s.step call .StopChan = some s') ∧
    (s.t.lock.writer = s.pc.holdsLock ∧ s.t.lock.readers = 0) ∧
    (s.pc.holdsLock = false →
      s.t.Running = some (s.t.running, s.t) ∧ s.t.Err = some (s.t.err, s.t) ∧
      s.t.S = some (s.t.shouldStop, s.t) ∧
      ∀ f, s.t.Then f = some { s.t with thens := s.t.thens ++ [f] }) ∧
    (s.pc.holdsLock = true →
      s.t.Running = none ∧ s.t.Err = none ∧ s.t.S = none ∧ (∀ f, s.t.Then f = none) ∧
      ∀ ev s', ev ≠ .go → s.step call ev = some s' →
        s'.t.lock = s.t.lock ∧ s'.pc = s.pc) := by
  have hlock : s.t.lock.writer = s.pc.holdsLock ∧ s.t.lock.readers = 0 := by
    rcases Sys.reachable call hrun with hp | ⟨e, L, hpost⟩
    · obtain ⟨hw, hr, hh, -⟩ := Sys.Pre_facts hp
      exact ⟨by rw [hw, hh], hr⟩
    · exact ⟨(Sys.Post_facts call hpost).2.2.2.2.2.2.2.2.1,
        (Sys.Post_facts call hpost).2.2.2.2.2.2.2.2.2.1⟩
  refine ⟨⟨_, rfl⟩, ⟨_, rfl⟩, hlock, ?_, ?_⟩
  · intro hh
    simp [Task.Running_eq, Task.Err_eq, Task.S_eq, Task.Then_eq, hlock.1, hlock.2, hh]
  · intro hh
    refine ⟨?_, ?_, ?_, ?_, ?_⟩
    · simp [Task.Running_eq, hlock.1, hh]
    · simp [Task.Err_eq, hlock.1, hh]
    · simp [Task.S_eq, hlock.1, hh]
    · simp [Task.Then_eq, hlock.1, hh]
    · intro ev s' hev h
      exact ⟨(Sys.step_other call h hev).1, (Sys.step_other call h hev).2.1⟩

/-- Witness of C8: before the work returns `Running()` returns, inside the
completion sequence it does not. -/
theorem C8_blocking_witness :
    (Go (.ret none) []).exec logCall [.Then "A", .Then "B"] = some ready ∧
    ready.t.Running = some (true, ready.t) ∧
    (Go (.ret none) []).exec logCall ([.Then "A", .Then "B"] ++ goSteps 4) = some inCallback ∧
    inCallback.t.Running = none :=
  ⟨by decide,
    ((C8_blocking logCall (.ret none) [] [.Then "A", .Then "B"] ready
      (by decide)).2.2.2.1 (by decide)).1,
    by decide,
    ((C8_blocking logCall (.ret none) [] ([.Then "A", .Then "B"] ++ goSteps 4) inCallback
      (by decide)).2.2.2.2 (by decide)).1⟩

/-- C9: a call of `Then` that returns, returns the handle it was called on and
leaves the heap as it was but for the task behind the handle, which has the
callback appended to its list and nothing else changed; it does return when the
lock of the task is free; chaining a second `Then` on the returned handle is
calling it on the first handle; and as an event `Then` leaves the goroutine of
`Go`, the callbacks called and their state as they are. -/
theorem C9_then_appends (call : κ → Task κ ε → W → Option W) (σ : Heap κ ε) (t : Nat) (a b : κ)
    (s : Sys κ ε W) :
    (∀ r, σ.Then t a = some r → r.1 = t ∧ ∃ obj, σ[t]? = some obj ∧
      r.2 = σ.set t { obj with thens := obj.thens ++ [a] }) ∧
    (∀ obj, σ[t]? = some obj → obj.lock = { writer := false, readers := 0 } →
      σ.Then t a = some (t, σ.set t { obj with thens := obj.thens ++ [a] })) ∧
    ((σ.Then t a).bind (fun r => Heap.Then r.2 r.1 b) =
      (σ.Then t a).bind (fun r => Heap.Then r.2 t b)) ∧
    (∀ s', s.step call (.Then a) = some s' →
      s' = { s with t := { s.t with thens := s.t.thens ++ [a] } }) := by
  have key : ∀ r, σ.Then t a = some r → r.1 = t ∧ ∃ obj, σ[t]? = some obj ∧
      r.2 = σ.set t { obj with thens := obj.thens ++ [a] } := by
    intro r hr
    simp only [Heap.Then, bind, pure] at hr
    cases hobj : σ[t]? with
    | none => simp [hobj] at hr
    | some obj =>
      simp only [hobj, Option.bind, Task.Then_eq] at hr
      split at hr
      · simp at hr
      · rename_i obj' hobj'
        split at hobj'
        · simp at hobj'
        · simp only [Option.some.injEq] at hobj' hr
          subst hobj' hr
          exact ⟨rfl, obj, rfl, rfl⟩
  refine ⟨key, ?_, ?_, ?_⟩
  · intro obj hobj hl
    simp [Heap.Then, bind, pure, hobj, Task.Then_eq, hl]
  · cases h : σ.Then t a with
    | none => rfl
    | some r => simp [(key r h).1]
  · intro s' h
    simp only [Sys.step, Task.Then_eq] at h
    split at h
    · simp at h
    · simp only [Option.map_some', Option.some.injEq] at h
      exact h.symm

/-- Witness of C9: `Then "C"` on the handle 0 of a heap holding the task of
the scenario before its work returns. -/
theorem C9_then_appends_witness :
    Heap.Then [ready.t] 0 "C" =
      some (0, [{ ready.t with thens := ["A", "B", "C"] }]) :=
  (C9_then_appends logCall [ready.t] 0 "C" "C" ready).2.1 ready.t (by decide) (by decide)

/-- C10: in every state reached from `Go` in which the goroutine of `Go` has
exited, `Then` returns and appends its callback to the list, and in every
state reached from there by whatever events the callbacks called and the state
they act on are as they were at completion, the goroutine never running
again. -/
theorem C10_late_then_never_called (call : κ → Task κ ε → W → Option W) (fn : Work ε) (w : W)
    (tr : List (Ev κ)) (s : Sys κ ε W)
    (hrun : (Go fn w).exec call tr = some s) (hpc : s.pc = .done) :
    (∀ f, s.step call (.Then f) =
      some { s with t := { s.t with thens := s.t.thens ++ [f] } }) ∧
    (∀ tr' s', s.exec call tr' = some s' →
      s'.calls = s.calls ∧ s'.world = s.world ∧ s'.pc = .done ∧
      s'.step call .go = none ∧ s'.t.thens = s.t.thens ++ registered tr') := by
  constructor
  · intro f
    rcases Sys.reachable call hrun with hp | ⟨e, L, hpost⟩
    · obtain ⟨w', hw'⟩ := hp.2.2.2.2.2.2
      rw [hw'] at hpc
      cases hpc
    · obtain ⟨-, -, -, -, -, -, hd, -, -, hr, -⟩ := Sys.Post_facts call hpost
      simp [Sys.step, Task.Then_eq, (hd hpc).1, hr]
  · intro tr' s' h
    obtain ⟨h₁, h₂, h₃⟩ := Sys.exec_done call h hpc
    exact ⟨h₂, h₃, h₁, by simp [Sys.step, Sys.go, h₁], Sys.exec_thens call h⟩

/-- Witness of C10: a callback "C" registered after the completion sequence of
the scenario is held by the task and not called. -/
theorem C10_late_then_never_called_witness :
    (Go (.ret none) []).exec logCall ([.Then "A", .Then "B"] ++ goSteps 7) = some finished ∧
    finished.pc = .done ∧
    finished.step logCall (.Then "C") =
      some { finished with t := { finished.t with thens := ["A", "B", "C"] } } :=
  ⟨by decide, by decide,
    (C10_late_then_never_called logCall (.ret none) [] ([.Then "A", .Then "B"] ++ goSteps 7)
      finished (by decide) (by decide)).1 "C"⟩

end Runner
